import Mathlib

/-!
Shallow embedding of the hybrid-memory core of the repository
(src/agent/contradiction_handler.py and src/agent/hybrid_memory.py),
together with theorems settling the behavioural claims about it.

Conventions of the embedding:
* Python strings are Lean `String`s manipulated as `List Char`;
  the ad hoc regular expressions of the source are implemented as
  executable matchers with Python `re` backtracking semantics
  (leftmost position wins, alternatives tried in order, greedy
  quantifiers with backtracking).
* Timestamps are integers counting seconds; `datetime` subtraction
  followed by `total_seconds()` becomes integer subtraction.
* Calls into the external stores (mem0, Graphiti, Neo4j) are modelled
  as oracle functions returning `Except String`, an exception being
  the `.error` case.
-/

/-! ### Character and string helpers (Python `str` operations) -/

/-- Python `\s` for the ASCII range: space, tab, newline, carriage
return, vertical tab, form feed. -/
def isWS (c : Char) : Bool :=
  c = ' ' || c = '\t' || c = '\n' || c = '\r' || c = '\x0b' || c = '\x0c'

/-- ASCII lower-casing of one character, as Python `str.lower` acts on
the ASCII inputs handled by the agent. -/
def toLowerChar (c : Char) : Char :=
  if 'A' ≤ c && c ≤ 'Z' then Char.ofNat (c.toNat + 32) else c

/-- ASCII upper-casing of one character. -/
def toUpperChar (c : Char) : Char :=
  if 'a' ≤ c && c ≤ 'z' then Char.ofNat (c.toNat - 32) else c

def isUpperCh (c : Char) : Bool := 'A' ≤ c && c ≤ 'Z'

def isAsciiAlpha (c : Char) : Bool :=
  ('a' ≤ c && c ≤ 'z') || ('A' ≤ c && c ≤ 'Z')

def isDigitCh (c : Char) : Bool := '0' ≤ c && c ≤ '9'

/-- Python `\w`: letters, digits and underscore. -/
def isWordChar (c : Char) : Bool := isAsciiAlpha c || isDigitCh c || c = '_'

def toLowerChars (s : List Char) : List Char := s.map toLowerChar

/-- Python `str.strip()`. -/
def stripChars (s : List Char) : List Char :=
  ((s.dropWhile isWS).reverse.dropWhile isWS).reverse

def strOf (l : List Char) : String := String.mk l

def lowerStr (s : String) : String := strOf (toLowerChars s.data)

/-- The apostrophe character, used to assemble the contracted negation
words of the source patterns. -/
def apos : Char := Char.ofNat 39

/-- Join two fragments with an apostrophe between them. -/
def aposJoin (a b : String) : String := a ++ String.singleton apos ++ b

/-- `dropPref p s` returns the remainder of `s` after the literal
prefix `p`, when `p` is a prefix of `s`. -/
def dropPref : List Char → List Char → Option (List Char)
  | [], s => some s
  | _ :: _, [] => none
  | p :: ps, c :: cs => if p = c then dropPref ps cs else none

/-- Case-insensitive variant of `dropPref` (the pattern `p` is given in
lower case); returns the consumed original-case characters and the
remainder. -/
def dropPrefCI : List Char → List Char → Option (List Char × List Char)
  | [], s => some ([], s)
  | _ :: _, [] => none
  | p :: ps, c :: cs =>
    if p = toLowerChar c then
      (dropPrefCI ps cs).map (fun pr => (c :: pr.1, pr.2))
    else none

/-- Python substring membership `needle in hay` on character lists. -/
def listSub (needle : List Char) : List Char → Bool
  | [] => needle.isEmpty
  | c :: rest => needle.isPrefixOf (c :: rest) || listSub needle rest

/-- Python `needle in hay` for strings (substring containment). -/
def containsSub (needle hay : String) : Bool := listSub needle.data hay.data

/-! ### A small backtracking matcher for the source's regex fragments

The source uses a handful of fixed regular expressions.  Each is
compiled by hand into combinators that reproduce Python `re` search
semantics: `searchPos` scans start positions left to right, `altsAt`
tries alternatives in their written order and backtracks into the next
alternative when the continuation fails, and the `\s+(.+)`-style tails
implement greedy matching with backtracking. -/

/-- Match `(.+)` at the start of `s`: the maximal non-newline run,
required non-empty. -/
def capFrom (s : List Char) : Option (List Char) :=
  let cap := s.takeWhile (fun c => c ≠ '\n')
  if cap.isEmpty then none else some cap

/-- Match `\s+(.+)` at the start of `s`, returning the capture.  The
`\s+` is greedy and backtracks one whitespace character at a time when
`(.+)` cannot match, exactly as Python resolves the pattern. -/
def wsThenCap : List Char → Option (List Char)
  | [] => none
  | c :: rest =>
    if isWS c then
      match wsThenCap rest with
      | some cap => some cap
      | none => capFrom rest
    else none

/-- Match `\s+(\w+)` at the start of `s`.  Since a word character is
never whitespace, the greedy `\s+` never usefully backtracks here. -/
def wsWordCap (s : List Char) : Option (List Char) :=
  let w := s.takeWhile isWS
  if w.isEmpty then none
  else
    let cap := (s.drop w.length).takeWhile isWordChar
    if cap.isEmpty then none else some cap

/-- Try each literal alternative in order at the current position; on a
prefix hit run the continuation, falling through to the next
alternative when it fails (regex alternation with backtracking). -/
def altsAt {α : Type} (alts : List String) (s : List Char) (k : List Char → Option α) : Option α :=
  alts.findSome? fun a =>
    match dropPref a.data s with
    | some r => k r
    | none => none

/-- Match `\s+` (greedy) then run the continuation.  All continuations
used with this combinator start with a non-whitespace literal, so the
greedy match is exact and needs no backtracking. -/
def wsAt {α : Type} (s : List Char) (k : List Char → Option α) : Option α :=
  let w := s.takeWhile isWS
  if w.isEmpty then none else k (s.drop w.length)

/-- `re.search` position scan: try the position matcher at every start
position from left to right (including the final empty suffix). -/
def searchPos {α : Type} (f : List Char → Option α) : List Char → Option α
  | [] => f []
  | c :: rest =>
    match f (c :: rest) with
    | some r => some r
    | none => searchPos f rest

/-! ### `ContradictionHandler.NEGATION_PATTERNS` and `detect_negation`

Each pattern of the source list becomes a position matcher returning
`none` (no match at this position), `some (some cap)` (match with a
captured group) or `some none` (match of a group-less pattern). -/

/-- `(?:do not|don't|does not|doesn't|did not|didn't)\s+(.+)` -/
def negPat1 (s : List Char) : Option (Option (List Char)) :=
  (altsAt ["do not", aposJoin "don" "t", "does not", aposJoin "doesn" "t",
           "did not", aposJoin "didn" "t"] s wsThenCap).map some

/-- `(?:no longer|not anymore)\s+(.+)` -/
def negPat2 (s : List Char) : Option (Option (List Char)) :=
  (altsAt ["no longer", "not anymore"] s wsThenCap).map some

/-- `(?:never|not)\s+(.+)` -/
def negPat3 (s : List Char) : Option (Option (List Char)) :=
  (altsAt ["never", "not"] s wsThenCap).map some

/-- `(?:i am not|i'm not|i'm no longer)\s+(.+)` -/
def negPat4 (s : List Char) : Option (Option (List Char)) :=
  (altsAt ["i am not", aposJoin "i" "m not", aposJoin "i" "m no longer"] s wsThenCap).map some

/-- `(?:that's|that is)\s+(?:incorrect|wrong|not true|not correct|not right)` — no group. -/
def negPat5 (s : List Char) : Option (Option (List Char)) :=
  (altsAt [aposJoin "that" "s", "that is"] s fun r1 =>
    wsAt r1 fun r2 =>
      altsAt ["incorrect", "wrong", "not true", "not correct", "not right"] r2 fun _ =>
        some ()).map fun _ => none

/-- `(?:actually|correction)[:,]?\s+(.+)` — the optional punctuation is
greedy: it is consumed when present, backtracking when that blocks the
rest of the pattern. -/
def negPat6 (s : List Char) : Option (Option (List Char)) :=
  (altsAt ["actually", "correction"] s fun r =>
    match r with
    | c :: rest =>
      if c = ':' || c = ',' then
        match wsThenCap rest with
        | some cap => some cap
        | none => wsThenCap r
      else wsThenCap r
    | [] => none).map some

/-- `(?:flip|flipped|swapped|switched|reversed|backwards)` — no group. -/
def negPat7 (s : List Char) : Option (Option (List Char)) :=
  (altsAt ["flip", "flipped", "swapped", "switched", "reversed", "backwards"] s fun _ =>
    some ()).map fun _ => none

/-- `(?:the other way around|vice versa)` — no group. -/
def negPat8 (s : List Char) : Option (Option (List Char)) :=
  (altsAt ["the other way around", "vice versa"] s fun _ => some ()).map fun _ => none

/-- `(?:my|the)\s+(?:role|position|job|title)\s+(?:at|with|for)\s+(.+)` -/
def negPat9 (s : List Char) : Option (Option (List Char)) :=
  (altsAt ["my", "the"] s fun r1 =>
    wsAt r1 fun r2 =>
      altsAt ["role", "position", "job", "title"] r2 fun r3 =>
        wsAt r3 fun r4 =>
          altsAt ["at", "with", "for"] r4 wsThenCap).map some

/-- `(?:i|we)\s+(?:work|works)\s+(?:at|for|with)\s+(.+)` -/
def negPat10 (s : List Char) : Option (Option (List Char)) :=
  (altsAt ["i", "we"] s fun r1 =>
    wsAt r1 fun r2 =>
      altsAt ["work", "works"] r2 fun r3 =>
        wsAt r3 fun r4 =>
          altsAt ["at", "for", "with"] r4 wsThenCap).map some

/-- The ordered pattern list of `ContradictionHandler.NEGATION_PATTERNS`. -/
def NEGATION_PATTERNS : List (List Char → Option (Option (List Char))) :=
  [negPat1, negPat2, negPat3, negPat4, negPat5, negPat6, negPat7, negPat8, negPat9, negPat10]

/-- `ContradictionHandler.detect_negation`: lowercase and strip the
message, try the patterns in order, first match wins; a pattern with a
group returns the stripped capture, a group-less pattern returns the
whole normalised message; no match returns `none`. -/
def detect_negation (message : String) : Option String :=
  let message_lower := stripChars (toLowerChars message.data)
  NEGATION_PATTERNS.findSome? fun pat =>
    match searchPos pat message_lower with
    | some (some cap) => some (strOf (stripChars cap))
    | some none => some (strOf message_lower)
    | none => none

/-! ### `ContradictionHandler.extract_topic_keywords` -/

def WORK_KEYWORDS : List String :=
  ["work", "works", "working", "worked", "employed", "job", "position", "role"]

def LOCATION_KEYWORDS : List String :=
  ["live", "lives", "living", "lived", "located", "reside", "from"]

/-- The fixed employment synonym bundle added on any work-keyword hit. -/
def workBundle : List String :=
  ["work", "position", "role", "job", "developer", "engineer"]

/-- `re.search(r'(?:work|works|working|role|position)\s+(?:at|for|with)\s+(\w+)', text)`,
returning the captured company word. -/
def companyAfterWork (s : List Char) : Option (List Char) :=
  searchPos
    (fun t =>
      altsAt ["work", "works", "working", "role", "position"] t fun r1 =>
        wsAt r1 fun r2 =>
          altsAt ["at", "for", "with"] r2 wsWordCap)
    s

/-- Greedy match of `(?:\s+[a-zA-Z]+)*`: returns the matched characters
(whitespace included, as the capture keeps it) and the remainder.  The
fuel is the length of the scanned suffix; every iteration consumes at
least two characters, so the fuel never runs out on the call sites. -/
def letterChainMore (fuel : Nat) (s : List Char) : List Char × List Char :=
  match fuel with
  | 0 => ([], s)
  | f + 1 =>
    let w := s.takeWhile isWS
    if w.isEmpty then ([], s)
    else
      let r := s.drop w.length
      let ls := r.takeWhile isAsciiAlpha
      if ls.isEmpty then ([], s)
      else
        let next := letterChainMore f (r.drop ls.length)
        (w ++ ls ++ next.1, next.2)

/-- One-position matcher for
`(?:at|for|with)\s+([a-zA-Z]+(?:\s+[a-zA-Z]+)*)`: returns the capture
and the remainder after the full match. -/
def companyPat1At (s : List Char) : Option (List Char × List Char) :=
  altsAt ["at", "for", "with"] s fun r =>
    let w := r.takeWhile isWS
    if w.isEmpty then none
    else
      let r2 := r.drop w.length
      let ls := r2.takeWhile isAsciiAlpha
      if ls.isEmpty then none
      else
        let more := letterChainMore r2.length (r2.drop ls.length)
        some (ls ++ more.1, more.2)

/-- `re.findall` scan for the pattern above: non-overlapping matches,
resuming after each match end. -/
def findallCompany1 (fuel : Nat) (s : List Char) : List (List Char) :=
  match fuel, s with
  | 0, _ => []
  | _, [] => []
  | f + 1, c :: rest =>
    match companyPat1At (c :: rest) with
    | some (cap, after) => cap :: findallCompany1 f after
    | none => findallCompany1 f rest

/-- The hardcoded gazetteer of known company names. -/
def GAZETTEER : List String :=
  ["mirazon", "brainiacs", "corpx", "techcorp", "tesla", "microsoft", "google", "amazon", "apple"]

/-- One-position matcher for `\b(company|…)\b`; `prevWord` tells
whether the character before this position is a word character (which
would violate the leading boundary). -/
def gazAt (prevWord : Bool) (s : List Char) : Option (List Char × List Char) :=
  if prevWord then none
  else
    GAZETTEER.findSome? fun comp =>
      match dropPref comp.data s with
      | some r =>
        match r with
        | [] => some (comp.data, [])
        | c :: _ => if isWordChar c then none else some (comp.data, r)
      | none => none

/-- `re.findall` scan for the gazetteer pattern. -/
def findallGaz (fuel : Nat) (prevWord : Bool) (s : List Char) : List (List Char) :=
  match fuel, s with
  | 0, _ => []
  | _, [] => []
  | f + 1, c :: rest =>
    match gazAt prevWord (c :: rest) with
    | some (cap, after) => cap :: findallGaz f true after
    | none => findallGaz f (isWordChar c) rest

/-- One-position matcher for `\b[A-Z][a-zA-Z]+\b` (capitalised words of
length at least two, on the original-case text). -/
def properAt (prevWord : Bool) (s : List Char) : Option (List Char × List Char) :=
  if prevWord then none
  else
    match s with
    | [] => none
    | c :: rest =>
      if isUpperCh c then
        let ls := rest.takeWhile isAsciiAlpha
        if ls.isEmpty then none
        else
          match rest.drop ls.length with
          | [] => some (c :: ls, [])
          | d :: _ =>
            if isWordChar d then none else some (c :: ls, rest.drop ls.length)
      else none

/-- `re.findall` scan for capitalised proper-noun tokens. -/
def findallProper (fuel : Nat) (prevWord : Bool) (s : List Char) : List (List Char) :=
  match fuel, s with
  | 0, _ => []
  | _, [] => []
  | f + 1, c :: rest =>
    match properAt prevWord (c :: rest) with
    | some (cap, after) => cap :: findallProper f true after
    | none => findallProper f (isWordChar c) rest

/-- Order-preserving deduplication keeping first occurrences.  The
source uses `list(set(keywords))`, whose ordering is unspecified; every
property proved below depends only on membership. -/
def dedupKeep (seen : List String) : List String → List String
  | [] => []
  | k :: rest =>
    if seen.contains k then dedupKeep seen rest
    else k :: dedupKeep (k :: seen) rest

def noise_words : List String :=
  ["the", "and", "but", "for", "not", "this", "that", "with", "from",
   "have", "has", "is", "as", "a", "an"]

/-- `ContradictionHandler.extract_topic_keywords`. -/
def extract_topic_keywords (text : String) : List String :=
  let text_lower := lowerStr text
  let tl := text_lower.data
  let kw1 : List String :=
    if WORK_KEYWORDS.any (fun k => containsSub k text_lower) then
      workBundle ++
        (match companyAfterWork tl with
         | some cap => [strOf cap]
         | none => [])
    else []
  let kw2 : List String :=
    (findallCompany1 tl.length tl).filterMap fun m =>
      if m.length > 2 then some (strOf (stripChars m)) else none
  let kw3 : List String :=
    (findallGaz tl.length false tl).filterMap fun m =>
      if m.length > 2 then some (strOf (stripChars m)) else none
  let kw4 : List String :=
    if ["role", "position", "title", "job"].any (fun w => containsSub w text_lower) then
      ["role", "position"]
    else []
  let kw5 : List String :=
    if LOCATION_KEYWORDS.any (fun k => containsSub k text_lower) then
      ["location", "live"]
    else []
  let kw6 : List String :=
    (findallProper text.data.length false text.data).map fun n => strOf (toLowerChars n)
  let keywords := kw1 ++ kw2 ++ kw3 ++ kw4 ++ kw5 ++ kw6
  (dedupKeep [] keywords).filter fun k => !noise_words.contains k

/-! ### `ContradictionHandler.invalidate_contradicting_facts`

A Graphiti entity edge as the handler uses it: the `fact` text is a
required field of Graphiti's `EntityEdge`, while `created_at` and
`invalid_at` may be absent (`None`).  Timestamps are seconds. -/

structure EntityEdge where
  fact : String
  created_at : Option Int
  invalid_at : Option Int
deriving DecidableEq

/-- The negation markers checked inside the invalidation loop. -/
def negationWords : List String :=
  ["not", "no longer", "never", "does not", "do not"]

/-- The grace-window test: skip a fact created less than 10 seconds
before `reference_time`; a fact with no `created_at` is never skipped. -/
def graceSkip (reference_time : Int) (edge : EntityEdge) : Bool :=
  match edge.created_at with
  | some t => decide (reference_time - t < 10)
  | none => false

/-- The keyword test of the invalidation loop: the edge is flagged when
some keyword occurs in the lowercased fact text and the fact text does
not already contain a negation word. -/
def shouldInvalidateFlag (keywords : List String) (fact : String) : Bool :=
  let fact_lower := lowerStr fact
  keywords.any fun keyword =>
    containsSub keyword fact_lower &&
      !(negationWords.any fun neg => containsSub neg fact_lower)

/-- `ContradictionHandler.invalidate_contradicting_facts`, with the
graph store's `search` supplied as an oracle; returns the selected
edges and the invalidated count.  A failure of the store search
propagates; the per-edge `invalid_at` write is modelled as succeeding
(a per-edge write failure only lowers the logged count). -/
def invalidate_contradicting_facts
    (graphitiSearch : String → Except String (List EntityEdge))
    (negated_topic : String) (reference_time : Int) :
    Except String (List EntityEdge × Nat) :=
  let keywords := extract_topic_keywords negated_topic
  if keywords.isEmpty then Except.ok ([], 0)
  else
    match graphitiSearch (String.intercalate " " keywords) with
    | Except.error e => Except.error e
    | Except.ok related_facts =>
      if related_facts.isEmpty then Except.ok ([], 0)
      else
        let selected := related_facts.filter fun edge =>
          edge.invalid_at.isNone &&
            !(graceSkip reference_time edge) &&
            shouldInvalidateFlag keywords edge.fact
        Except.ok (selected, selected.length)

/-- The edges invalidated by a call whose graph search returns
`results`. -/
def invalidatedEdges (negated_topic : String) (reference_time : Int)
    (results : List EntityEdge) : List EntityEdge :=
  match invalidate_contradicting_facts (fun _ => Except.ok results) negated_topic reference_time with
  | Except.ok sel => sel.1
  | Except.error _ => []

/-! ### `HybridMemoryManager.search` -/

/-- A mem0 vector search result as the fusion code probes it:
`mem.get('memory', mem.get('text', str(mem)))`.  `reprStr` stands for
the stringified record used as the last fallback. -/
structure VectorResult where
  memory : Option String
  text : Option String
  reprStr : String
deriving DecidableEq

/-- A graph edge as the duck-typed fusion code probes it: `fact`,
`name`, and the node names may each be absent. -/
structure GraphEdge where
  fact : Option String
  name : Option String
  source_node_name : Option String
  target_node_name : Option String
  invalid_at : Option Int
deriving DecidableEq

structure SearchResults where
  vector_results : List VectorResult
  graph_results : List GraphEdge
  combined_context : String
deriving DecidableEq

def notInitializedMsg : String :=
  "Hybrid memory not initialized. Call initialize() first."

/-- One context line from a vector result. -/
def memLine (m : VectorResult) : String :=
  "- " ++ m.memory.getD (m.text.getD m.reprStr)

/-- One context line from a valid graph edge: prefer `fact`, fall back
to `name`, fall back to the synthesized `source relation target`
string. -/
def graphLine (e : GraphEdge) : String :=
  match e.fact with
  | some f => "- " ++ f
  | none =>
    match e.name with
    | some n => "- " ++ n
    | none =>
      "- " ++ (e.source_node_name.getD "Unknown" ++ " " ++
        (e.name.getD (e.fact.getD "related to")) ++ " " ++
        e.target_node_name.getD "Unknown")

/-- The vector half of `context_parts`, in result order. -/
def vectorParts : List VectorResult → List String
  | [] => []
  | m :: rest => memLine m :: vectorParts rest

/-- The graph half of `context_parts`: edges with a set `invalid_at`
are skipped, every other edge contributes exactly one line. -/
def graphParts : List GraphEdge → List String
  | [] => []
  | e :: rest =>
    match e.invalid_at with
    | some _ => graphParts rest
    | none => graphLine e :: graphParts rest

def contextHeader : String := "\n[Previous Context]:\n"

/-- Assemble `combined_context` from the collected parts: the empty
string when no part was produced, otherwise the header plus the
newline-joined parts. -/
def combineParts (parts : List String) : String :=
  if parts.isEmpty then "" else contextHeader ++ String.intercalate "\n" parts

/-- `HybridMemoryManager.search`.  The two store calls are supplied as
already-resolved oracle outcomes; the single `try/except` of the source
means a vector-store failure returns before the graph store is
consulted, while a graph-store failure keeps the vector results already
stored in the result dict. -/
def search (initialized : Bool)
    (mem0Search : Except String (List VectorResult))
    (graphitiSearch : Except String (List GraphEdge)) :
    Except String SearchResults :=
  if !initialized then Except.error notInitializedMsg
  else
    let results0 : SearchResults := ⟨[], [], ""⟩
    Except.ok
      (match mem0Search with
       | Except.error _ => results0
       | Except.ok vres =>
         let results1 := { results0 with vector_results := vres }
         match graphitiSearch with
         | Except.error _ => results1
         | Except.ok gres =>
           let results2 := { results1 with graph_results := gres }
           let context_parts := vectorParts vres ++ graphParts gres
           { results2 with combined_context := combineParts context_parts })

/-! ### `HybridMemoryManager.add` -/

structure Msg where
  role : String
  content : String
deriving DecidableEq

/-- The result dict built by `add`: the opaque store results are
modelled as numeric tokens. -/
structure AddResults where
  mem0 : Option Nat
  graphiti : Option Nat
  invalidated_facts : Option Nat
deriving DecidableEq

/-- The external calls `add` makes, as oracles. -/
structure Oracles where
  mem0Search : String → Except String (List VectorResult)
  mem0Add : List Msg → Except String Nat
  graphitiAddEpisode : String → Except String Nat
  graphitiSearch : String → Except String (List EntityEdge)

/-- Python truthiness of an optional string (`None` and `""` are
falsy). -/
def truthyOpt : Option String → Bool
  | none => false
  | some s => !s.isEmpty

/-- The nearest preceding user message, given the earlier messages in
reverse order. -/
def prevUserOf (prevRev : List Msg) : Option Msg :=
  prevRev.find? fun m => m.role == "user"

/-- The keyword set used for the pre-emptive mem0 delete search: the
keywords of the negated topic, extended with the keywords of the
nearest preceding user message of the batch that are not already
present. -/
def mergeKeywords (negation : String) (prevMsg : Option Msg) : List String :=
  let keywords := extract_topic_keywords negation
  match prevMsg with
  | some pm =>
    keywords ++ (extract_topic_keywords pm.content).filter fun k => !keywords.contains k
  | none => keywords

/-- The delete-search keyword set computed by the pre-emptive conflict
cleanup for the message at index `i`, when that message is a user
message with a detected negation. -/
def precleanupKeywords (messages : List Msg) (i : Nat) : Option (List String) :=
  (messages.get? i).bind fun m =>
    if m.role == "user" then
      (detect_negation m.content).map fun negation =>
        mergeKeywords negation (prevUserOf (messages.take i).reverse)
    else none

/-- The pre-emptive conflict cleanup loop of `add`: for every user
message with a detected negation, search mem0 with the merged keyword
set; the per-memory deletes are wrapped in their own `try/except`, so
only the mem0 search itself can raise. -/
def precleanupGo (mem0Search : String → Except String (List VectorResult)) :
    List Msg → List Msg → Except String Unit
  | _, [] => Except.ok ()
  | prevRev, m :: rest =>
    if m.role == "user" then
      match detect_negation m.content with
      | some negation =>
        let keywords := mergeKeywords negation (prevUserOf prevRev)
        if keywords.isEmpty then precleanupGo mem0Search (m :: prevRev) rest
        else
          match mem0Search (String.intercalate " " keywords) with
          | Except.error e => Except.error e
          | Except.ok _ => precleanupGo mem0Search (m :: prevRev) rest
      | none => precleanupGo mem0Search (m :: prevRev) rest
    else precleanupGo mem0Search (m :: prevRev) rest

/-- First match of `re.findall(r'(?:at|for|with)\s+([A-Z][a-zA-Z]+)', text)`:
the company name spliced into correction messages. -/
def companyCapAt (s : List Char) : Option (List Char) :=
  altsAt ["at", "for", "with"] s fun r =>
    let w := r.takeWhile isWS
    if w.isEmpty then none
    else
      match r.drop w.length with
      | [] => none
      | c :: rest2 =>
        if isUpperCh c then
          let tail := rest2.takeWhile isAsciiAlpha
          if tail.isEmpty then none else some (c :: tail)
        else none

def firstCompanyCap (s : List Char) : Option String :=
  (searchPos companyCapAt s).map strOf

/-- Match `\s*(.+)` with greedy backtracking, returning the capture and
the remainder after the match. -/
def starCap : List Char → Option (List Char × List Char)
  | [] => none
  | c :: rest =>
    if isWS c then
      match starCap rest with
      | some r => some r
      | none =>
        let cap := (c :: rest).takeWhile (fun d => d ≠ '\n')
        if cap.isEmpty then none else some (cap, (c :: rest).drop cap.length)
    else
      let cap := (c :: rest).takeWhile (fun d => d ≠ '\n')
      if cap.isEmpty then none else some (cap, (c :: rest).drop cap.length)

/-- The `as` alternative of the optional `(?:is|as)?` followed by
`\s*(.+)`, with the final fallback of skipping the optional group. -/
def roleTailOptAs (s : List Char) : Option (List Char × List Char) :=
  match dropPrefCI "as".data s with
  | some pr =>
    (match starCap pr.2 with
     | some r => some r
     | none => starCap s)
  | none => starCap s

/-- Match `(?:is|as)?\s*(.+)` (the optional group is greedy, its
alternatives tried in order, case-insensitively). -/
def roleTailOpt (s : List Char) : Option (List Char × List Char) :=
  match dropPrefCI "is".data s with
  | some pr =>
    (match starCap pr.2 with
     | some r => some r
     | none => roleTailOptAs s)
  | none => roleTailOptAs s

/-- Match `\s+(?:is|as)?\s*(.+)` with the greedy `\s+` backtracking. -/
def roleTail : List Char → Option (List Char × List Char)
  | [] => none
  | c :: rest =>
    if isWS c then
      match roleTail rest with
      | some r => some r
      | none => roleTailOpt rest
    else none

/-- The alternatives of the role-statement pattern, in pattern order. -/
def roleAlts : List String :=
  ["my role", "my position", "my job", "my title", "i work", "i am", aposJoin "i" "m"]

/-- One-position, case-insensitive matcher for
`(my role|my position|my job|my title|i work|i am|i'm)\s+(?:is|as)?\s*(.+)`;
returns the two captures in original case and the remainder after the
match. -/
def roleAt (s : List Char) : Option (List Char × List Char × List Char) :=
  roleAlts.findSome? fun a =>
    match dropPrefCI a.data s with
    | some pr =>
      match roleTail pr.2 with
      | some g2after => some (pr.1, g2after.1, g2after.2)
      | none => none
    | none => none

/-- `re.search` scan for the role pattern, accumulating the prefix
before the match so the match span can be replaced. -/
def roleScan (acc : List Char) : List Char → Option (List Char × List Char × List Char × List Char)
  | [] => none
  | c :: rest =>
    match roleAt (c :: rest) with
    | some g => some (acc.reverse, g.1, g.2.1, g.2.2)
    | none => roleScan (c :: acc) rest

/-- The context-enrichment rewrite of one message (step 2 of `add`):
for a user correction, pull a company name from the previous user
message of the batch (falling back to the remembered last user message
of the previous call), and when the message matches a role statement
not already naming the company, splice the company in. -/
def enhanceOne (lastUserMessage : Option String) (prevRev : List Msg) (m : Msg) : Msg :=
  if m.role == "user" then
    match detect_negation m.content with
    | some _ =>
      let pc0 := (prevUserOf prevRev).map Msg.content
      let pc := if !truthyOpt pc0 && truthyOpt lastUserMessage then lastUserMessage else pc0
      match pc with
      | some prevContext =>
        if prevContext.isEmpty then m
        else
          match firstCompanyCap prevContext.data with
          | some company =>
            if containsSub (lowerStr company) (lowerStr m.content) then m
            else
              match roleScan [] m.content.data with
              | some g =>
                { role := "user",
                  content := strOf (g.1 ++ g.2.1 ++ (" at " ++ company ++ " is ").data ++
                    g.2.2.1 ++ g.2.2.2) }
              | none => m
          | none => m
      | none => m
    | none => m
  else m

/-- The enrichment pass over the whole batch. -/
def enhanceGo (lastUserMessage : Option String) : List Msg → List Msg → List Msg
  | _, [] => []
  | prevRev, m :: rest =>
    enhanceOne lastUserMessage prevRev m :: enhanceGo lastUserMessage (m :: prevRev) rest

/-- Python `str.capitalize()`: first character upper-cased, the rest
lower-cased. -/
def pyCapitalize (s : String) : String :=
  match s.data with
  | [] => s
  | c :: rest => strOf (toUpperChar c :: rest.map toLowerChar)

/-- The episode body submitted to Graphiti: `Role: content` lines. -/
def episodeText (messages : List Msg) : String :=
  String.intercalate "\n" (messages.map fun m => pyCapitalize m.role ++ ": " ++ m.content)

/-- The contradiction pass of `add`: every user message with a detected
negation triggers `invalidate_contradicting_facts`; its count
overwrites `results['invalidated_facts']`.  A store failure aborts the
pass carrying the results built so far. -/
def contradictionLoop (graphitiSearch : String → Except String (List EntityEdge))
    (reference_time : Int) (r : AddResults) :
    List Msg → Except (String × AddResults) AddResults
  | [] => Except.ok r
  | m :: rest =>
    if m.role == "user" then
      match detect_negation m.content with
      | some negation =>
        match invalidate_contradicting_facts graphitiSearch negation reference_time with
        | Except.error e => Except.error (e, r)
        | Except.ok sel =>
          contradictionLoop graphitiSearch reference_time
            { r with invalidated_facts := some sel.2 } rest
      | none => contradictionLoop graphitiSearch reference_time r rest
    else contradictionLoop graphitiSearch reference_time r rest

/-- The body of `add`'s `try` block.  An error carries the partial
results dict as built when the exception was raised. -/
def addTry (o : Oracles) (lastUserMessage : Option String) (reference_time : Int)
    (messages : List Msg) : Except (String × AddResults) AddResults :=
  let results0 : AddResults := ⟨none, none, none⟩
  match precleanupGo o.mem0Search [] messages with
  | Except.error e => Except.error (e, results0)
  | Except.ok _ =>
    let enhanced := enhanceGo lastUserMessage [] messages
    match o.mem0Add enhanced with
    | Except.error e => Except.error (e, results0)
    | Except.ok mres =>
      let results1 : AddResults := { results0 with mem0 := some mres }
      match o.graphitiAddEpisode (episodeText messages) with
      | Except.error e => Except.error (e, results1)
      | Except.ok gres =>
        let results2 : AddResults := { results1 with graphiti := some gres }
        contradictionLoop o.graphitiSearch reference_time results2 messages

/-- Step 6 of `add`: remember the last user message of the batch. -/
def updateLastUserMessage (messages : List Msg) (old : Option String) : Option String :=
  match messages.reverse.find? (fun m => m.role == "user") with
  | some m => some m.content
  | none => old

/-- `HybridMemoryManager.add`: hard `not initialized` error before the
`try` block; inside it, any step's failure is caught by the outer
handler, which returns the partial results (and leaves the remembered
last user message unchanged). -/
def add (initialized : Bool) (o : Oracles) (lastUserMessage : Option String)
    (reference_time : Int) (messages : List Msg) :
    Except String (AddResults × Option String) :=
  if !initialized then Except.error notInitializedMsg
  else
    Except.ok
      (match addTry o lastUserMessage reference_time messages with
       | Except.ok r => (r, updateLastUserMessage messages lastUserMessage)
       | Except.error er => (er.2, lastUserMessage))

/-! ### Helper lemmas -/

/-- Membership in the set of edges selected for invalidation, unfolding
the guards of `invalidate_contradicting_facts`. -/
theorem mem_invalidatedEdges {negated_topic : String} {reference_time : Int}
    {results : List EntityEdge} {e : EntityEdge} :
    e ∈ invalidatedEdges negated_topic reference_time results ↔
      ((extract_topic_keywords negated_topic).isEmpty = false ∧ e ∈ results ∧
        (e.invalid_at.isNone && !graceSkip reference_time e &&
          shouldInvalidateFlag (extract_topic_keywords negated_topic) e.fact) = true) := by
  unfold invalidatedEdges invalidate_contradicting_facts
  cases hk : (extract_topic_keywords negated_topic).isEmpty with
  | true => simp [hk]
  | false =>
    cases hr : results.isEmpty with
    | true =>
      have : results = [] := List.isEmpty_iff.mp hr
      simp [hk, hr, this]
    | false => simp [hk, hr, List.mem_filter]

/-- `List.findSome?` returns `none` when the function fails on every
element. -/
theorem findSome_eq_none_of_all {α β : Type} (f : α → Option β) :
    ∀ l : List α, (∀ a ∈ l, f a = none) → l.findSome? f = none := by
  intro l h
  induction l with
  | nil => rfl
  | cons a rest ih =>
    have ha : f a = none := h a (List.mem_cons_self a rest)
    have : (a :: rest).findSome? f = rest.findSome? f := by
      simp [List.findSome?, ha]
    rw [this]
    exact ih fun b hb => h b (List.mem_cons_of_mem a hb)

/-- `List.findSome?` returns the value delivered by the first element
on which the function succeeds. -/
theorem findSome_of_first {α β : Type} (f : α → Option β) :
    ∀ (l : List α) (i : Nat) (hi : i < l.length) (b : β),
      (∀ j (hj : j < i), f (l.get ⟨j, Nat.lt_trans hj hi⟩) = none) →
      f (l.get ⟨i, hi⟩) = some b → l.findSome? f = some b := by
  intro l
  induction l with
  | nil => intro i hi; exact absurd hi (by simp)
  | cons a rest ih =>
    intro i hi b hbefore hmatch
    cases i with
    | zero =>
      have : f a = some b := hmatch
      simp [List.findSome?, this]
    | succ n =>
      have ha : f a = none := hbefore 0 (Nat.succ_pos n)
      have step : (a :: rest).findSome? f = rest.findSome? f := by
        simp [List.findSome?, ha]
      rw [step]
      exact ih n (Nat.lt_of_succ_lt_succ hi) b
        (fun j hj => hbefore (j + 1) (Nat.succ_lt_succ hj)) hmatch

/-- The skip-invalid loop over graph edges is the filter of valid edges
mapped through the line formatter. -/
theorem graphParts_eq_filter_map (gres : List GraphEdge) :
    graphParts gres = (gres.filter fun e => e.invalid_at.isNone).map graphLine := by
  induction gres with
  | nil => rfl
  | cons e rest ih =>
    cases h : e.invalid_at with
    | none => simp [graphParts, h, List.filter_cons, Option.isNone, ih]
    | some t => simp [graphParts, h, List.filter_cons, Option.isNone, ih]

/-- Every vector-derived context line starts with the bullet `- `. -/
theorem vectorParts_bullet (vres : List VectorResult) :
    ∀ l ∈ vectorParts vres, ∃ t, l = "- " ++ t := by
  induction vres with
  | nil => intro l hl; cases hl
  | cons m rest ih =>
    intro l hl
    rcases List.mem_cons.mp hl with h | h
    · exact ⟨m.memory.getD (m.text.getD m.reprStr), h⟩
    · exact ih l h

/-- Every graph context line starts with the bullet `- `. -/
theorem graphLine_bullet (e : GraphEdge) : ∃ t, graphLine e = "- " ++ t := by
  unfold graphLine
  cases e.fact with
  | some f => exact ⟨f, rfl⟩
  | none =>
    cases e.name with
    | some n => exact ⟨n, rfl⟩
    | none => exact ⟨_, rfl⟩

/-- Every graph-derived context line starts with the bullet `- `. -/
theorem graphParts_bullet (gres : List GraphEdge) :
    ∀ l ∈ graphParts gres, ∃ t, l = "- " ++ t := by
  induction gres with
  | nil => intro l hl; cases hl
  | cons e rest ih =>
    intro l hl
    cases h : e.invalid_at with
    | some t0 =>
      simp only [graphParts, h] at hl
      exact ih l hl
    | none =>
      simp only [graphParts, h] at hl
      rcases List.mem_cons.mp hl with hh | hh
      · rcases graphLine_bullet e with ⟨t, ht⟩
        exact ⟨t, hh.trans ht⟩
      · exact ih l hh

/-- Every context line starts with the bullet `- `. -/
theorem parts_start_with_bullet (vres : List VectorResult) (gres : List GraphEdge) :
    ∀ l ∈ vectorParts vres ++ graphParts gres, ∃ t, l = "- " ++ t := by
  intro l hl
  rcases List.mem_append.mp hl with hv | hg
  · exact vectorParts_bullet vres l hv
  · exact graphParts_bullet gres l hg

/-! ### The claims -/

/-- **C1, counterexample.**  The claim states that an otherwise
eligible edge is invalidated iff *all* extracted keywords occur in its
fact text.  For the negated topic `work at tesla` the extracted
keywords include `work` and `tesla`; the fact `bob is developer`
contains only the keyword `developer` — a proper subset — is valid,
outside the grace window and free of negation markers, yet the source
invalidates it, because the loop breaks on the *first* keyword hit. -/
theorem keyword_match_all_counterexample :
    (⟨"bob is developer", some 0, none⟩ : EntityEdge) ∈
      invalidatedEdges "work at tesla" 100 [⟨"bob is developer", some 0, none⟩] ∧
    ((extract_topic_keywords "work at tesla").all fun k =>
      containsSub k (lowerStr "bob is developer")) = false ∧
    (negationWords.all fun n => !containsSub n (lowerStr "bob is developer")) = true ∧
    graceSkip 100 ⟨"bob is developer", some 0, none⟩ = false := by decide

/-- **C1, amended.**  For every edge returned by the graph search that
is still valid, outside the grace window, and whose fact text contains
no negation marker, the edge is invalidated iff **at least one**
keyword extracted from the negated topic occurs as a case-insensitive
substring of its fact text (disjunctive, not conjunctive, matching). -/
theorem invalidate_disjunctive_keyword_match (negated_topic : String)
    (reference_time : Int) (results : List EntityEdge) (e : EntityEdge)
    (hmem : e ∈ results) (hvalid : e.invalid_at = none)
    (hgrace : graceSkip reference_time e = false)
    (hnoneg : ∀ n ∈ negationWords, containsSub n (lowerStr e.fact) = false) :
    e ∈ invalidatedEdges negated_topic reference_time results ↔
      ∃ k ∈ extract_topic_keywords negated_topic,
        containsSub k (lowerStr e.fact) = true := by
  have hflag : shouldInvalidateFlag (extract_topic_keywords negated_topic) e.fact =
      (extract_topic_keywords negated_topic).any fun k => containsSub k (lowerStr e.fact) := by
    unfold shouldInvalidateFlag
    have hneg : (negationWords.any fun neg => containsSub neg (lowerStr e.fact)) = false := by
      rw [List.any_eq_false]
      intro n hn
      simp [hnoneg n hn]
    simp [hneg]
  rw [mem_invalidatedEdges]
  constructor
  · rintro ⟨-, -, hcond⟩
    rw [hvalid, hgrace, hflag] at hcond
    simpa using List.any_eq_true.mp (by simpa using hcond)
  · rintro ⟨k, hk, hsub⟩
    refine ⟨?_, hmem, ?_⟩
    · rcases hcase : extract_topic_keywords negated_topic with - | ⟨a, rest⟩
      · rw [hcase] at hk
        cases hk
      · rfl
    · rw [hvalid, hgrace, hflag]
      simpa using List.any_eq_true.mpr ⟨k, hk, hsub⟩

/-- Witness for the amended C1: the fact
`alice works at tesla as engineer` contains the keyword `work`, so the
edge is invalidated. -/
theorem invalidate_disjunctive_keyword_match_witness :
    (⟨"alice works at tesla as engineer", some 0, none⟩ : EntityEdge) ∈
      invalidatedEdges "work at tesla" 50
        [⟨"alice works at tesla as engineer", some 0, none⟩] :=
  (invalidate_disjunctive_keyword_match "work at tesla" 50
      [⟨"alice works at tesla as engineer", some 0, none⟩]
      ⟨"alice works at tesla as engineer", some 0, none⟩
      (by decide) rfl (by decide) (by decide)).mpr
    ⟨"work", by decide, by decide⟩

/-- **C2.**  An edge with `created_at = T` is never invalidated by a
call with `reference_time < T + 10` (ten-second grace window), and an
otherwise-matching edge is not skipped by the grace check at
`reference_time = T + 11`. -/
theorem grace_window_correct (negated_topic : String) (reference_time : Int)
    (results : List EntityEdge) (e : EntityEdge) (T : Int)
    (hmem : e ∈ results) (hcreated : e.created_at = some T) :
    (reference_time < T + 10 →
      e ∉ invalidatedEdges negated_topic reference_time results) ∧
    (reference_time = T + 11 →
      e.invalid_at = none →
      shouldInvalidateFlag (extract_topic_keywords negated_topic) e.fact = true →
      e ∈ invalidatedEdges negated_topic reference_time results) := by
  constructor
  · intro hlt hin
    rcases mem_invalidatedEdges.mp hin with ⟨-, -, hcond⟩
    have hskip : graceSkip reference_time e = true := by
      unfold graceSkip
      rw [hcreated]
      simp
      omega
    rw [hskip] at hcond
    simp at hcond
  · intro heq hvalid hflag
    have hskip : graceSkip reference_time e = false := by
      unfold graceSkip
      rw [hcreated, heq]
      simp
    have hkw : (extract_topic_keywords negated_topic).isEmpty = false := by
      rcases h : (extract_topic_keywords negated_topic) with - | ⟨a, rest⟩
      · rw [h] at hflag
        simp [shouldInvalidateFlag] at hflag
      · rfl
    exact mem_invalidatedEdges.mpr ⟨hkw, hmem, by rw [hvalid, hskip, hflag]; rfl⟩

/-- Witness for C2: the same matching edge, created at time `0`, is
skipped at `reference_time = 5` and invalidated at
`reference_time = 11`. -/
theorem grace_window_correct_witness :
    (⟨"alice works at tesla as engineer", some 0, none⟩ : EntityEdge) ∉
      invalidatedEdges "work at tesla" 5
        [⟨"alice works at tesla as engineer", some 0, none⟩] ∧
    (⟨"alice works at tesla as engineer", some 0, none⟩ : EntityEdge) ∈
      invalidatedEdges "work at tesla" 11
        [⟨"alice works at tesla as engineer", some 0, none⟩] :=
  ⟨(grace_window_correct "work at tesla" 5
      [⟨"alice works at tesla as engineer", some 0, none⟩]
      ⟨"alice works at tesla as engineer", some 0, none⟩ 0
      (by decide) rfl).1 (by decide),
   (grace_window_correct "work at tesla" 11
      [⟨"alice works at tesla as engineer", some 0, none⟩]
      ⟨"alice works at tesla as engineer", some 0, none⟩ 0
      (by decide) rfl).2 (by decide) rfl (by decide)⟩

/-- **C10.**  An edge whose `created_at` is absent bypasses the grace
window entirely: given validity and a keyword hit it is invalidated at
every `reference_time`. -/
theorem missing_created_at_bypasses_grace (negated_topic : String)
    (reference_time : Int) (results : List EntityEdge) (e : EntityEdge)
    (hmem : e ∈ results) (hcreated : e.created_at = none)
    (hvalid : e.invalid_at = none)
    (hflag : shouldInvalidateFlag (extract_topic_keywords negated_topic) e.fact = true) :
    e ∈ invalidatedEdges negated_topic reference_time results := by
  have hskip : graceSkip reference_time e = false := by
    unfold graceSkip
    rw [hcreated]
  have hkw : (extract_topic_keywords negated_topic).isEmpty = false := by
    rcases h : (extract_topic_keywords negated_topic) with - | ⟨a, rest⟩
    · rw [h] at hflag
      simp [shouldInvalidateFlag] at hflag
    · rfl
  exact mem_invalidatedEdges.mpr ⟨hkw, hmem, by rw [hvalid, hskip, hflag]; rfl⟩

/-- Witness for C10: an edge with no `created_at` is invalidated even
at `reference_time = 0`. -/
theorem missing_created_at_bypasses_grace_witness :
    (⟨"alice is engineer", none, none⟩ : EntityEdge) ∈
      invalidatedEdges "work at tesla" 0 [⟨"alice is engineer", none, none⟩] :=
  missing_created_at_bypasses_grace "work at tesla" 0
    [⟨"alice is engineer", none, none⟩] ⟨"alice is engineer", none, none⟩
    (by decide) rfl rfl (by decide)

/-- **C3.**  In `search`, edges whose `invalid_at` is set contribute no
line to `combined_context`, while every valid returned edge contributes
exactly one line through the `fact`/`name`/synthesized fallback chain
of `graphLine`; the unfiltered edge list is still returned in
`graph_results`. -/
theorem search_filters_invalid_edges (vres : List VectorResult) (gres : List GraphEdge) :
    search true (Except.ok vres) (Except.ok gres) =
      Except.ok
        { vector_results := vres, graph_results := gres,
          combined_context :=
            combineParts (vectorParts vres ++
              (gres.filter fun e => e.invalid_at.isNone).map graphLine) } := by
  simp [search, graphParts_eq_filter_map]

/-- **C8.**  `combined_context` is assembled from all vector lines
followed by all graph lines, each line carrying the `- ` bullet, and it
is exactly the empty string when no line was produced. -/
theorem combined_context_fusion (vres : List VectorResult) (gres : List GraphEdge) :
    (∀ l ∈ vectorParts vres ++ graphParts gres, "- ".data <+: l.data) ∧
    search true (Except.ok vres) (Except.ok gres) =
      Except.ok
        { vector_results := vres, graph_results := gres,
          combined_context := combineParts (vectorParts vres ++ graphParts gres) } ∧
    (vectorParts vres ++ graphParts gres = [] →
      search true (Except.ok vres) (Except.ok gres) =
        Except.ok { vector_results := vres, graph_results := gres, combined_context := "" }) := by
  refine ⟨?_, by simp [search], ?_⟩
  · intro l hl
    rcases parts_start_with_bullet vres gres l hl with ⟨t, ht⟩
    rw [ht]
    exact List.prefix_append "- ".data t.data
  · intro hparts
    have : combineParts (vectorParts vres ++ graphParts gres) = "" := by
      rw [hparts]
      rfl
    rw [← this]
    simp [search]

/-- Witness for C8: a concrete vector line carries the bullet. -/
theorem combined_context_fusion_witness :
    "- ".data <+: (memLine ⟨some "likes pizza", none, "r"⟩).data :=
  (combined_context_fusion [⟨some "likes pizza", none, "r"⟩] []).1
    (memLine ⟨some "likes pizza", none, "r"⟩) (by simp [vectorParts])

/-- **C4, counterexample.**  The claim states that a vector-store
failure still leaves the graph results obtained and returned.  In the
source a single `try/except` wraps both store calls, so when the vector
search raises, the whole `search` returns the untouched result dict:
the graph store's edge is dropped even though its search would have
returned it. -/
theorem search_failure_independence_counterexample :
    search true (Except.error "connection refused")
        (Except.ok [⟨some "Alice works at Tesla", none, none, none, none⟩]) =
      Except.ok { vector_results := [], graph_results := [], combined_context := "" } ∧
    ([] : List GraphEdge) ≠ [⟨some "Alice works at Tesla", none, none, none, none⟩] :=
  ⟨rfl, by decide⟩

/-- **C4, amended.**  Failure handling in `search` is asymmetric, not
per-source independent: a vector-store failure aborts the whole search
and returns empty results for both sources, while a graph-store failure
preserves the already-obtained vector results (with empty graph results
and an empty `combined_context`). -/
theorem search_failure_degradation (err : String) (vres : List VectorResult)
    (g : Except String (List GraphEdge)) :
    search true (Except.error err) g =
      Except.ok { vector_results := [], graph_results := [], combined_context := "" } ∧
    search true (Except.ok vres) (Except.error err) =
      Except.ok { vector_results := vres, graph_results := [], combined_context := "" } :=
  ⟨rfl, rfl⟩

/-- **C5.**  On an initialized manager, `add` never raises: every
failure inside the pipeline (vector pre-cleanup, vector add, graph
episode add, contradiction resolution) is caught by the outer handler
and a partial results structure is returned. -/
theorem add_never_raises_when_initialized (o : Oracles) (lastUserMessage : Option String)
    (reference_time : Int) (messages : List Msg) :
    ∃ r, add true o lastUserMessage reference_time messages = Except.ok r :=
  ⟨_, rfl⟩

/-- **C6.**  Before initialization both `add` and `search` raise the
`not initialized` error instead of proceeding. -/
theorem not_initialized_error (o : Oracles) (lastUserMessage : Option String)
    (reference_time : Int) (messages : List Msg)
    (mem0Search : Except String (List VectorResult))
    (graphitiSearch : Except String (List GraphEdge)) :
    add false o lastUserMessage reference_time messages = Except.error notInitializedMsg ∧
    search false mem0Search graphitiSearch = Except.error notInitializedMsg :=
  ⟨rfl, rfl⟩

/-- **C7.**  `detect_negation` tries the patterns in their listed order
and the first matching pattern decides the result: a captured group is
returned trimmed, a group-less match returns the whole normalised
(lowercased) message, and no match returns `none`. -/
theorem detect_negation_first_match (message : String) :
    ((∀ pat ∈ NEGATION_PATTERNS,
        searchPos pat (stripChars (toLowerChars message.data)) = none) →
      detect_negation message = none) ∧
    (∀ (i : Nat) (hi : i < NEGATION_PATTERNS.length) (r : Option (List Char)),
      (∀ j (hj : j < i),
        searchPos (NEGATION_PATTERNS.get ⟨j, Nat.lt_trans hj hi⟩)
          (stripChars (toLowerChars message.data)) = none) →
      searchPos (NEGATION_PATTERNS.get ⟨i, hi⟩)
          (stripChars (toLowerChars message.data)) = some r →
      detect_negation message =
        some (match r with
          | some cap => strOf (stripChars cap)
          | none => strOf (stripChars (toLowerChars message.data)))) := by
  constructor
  · intro hall
    unfold detect_negation
    apply findSome_eq_none_of_all
    intro pat hpat
    rw [hall pat hpat]
  · intro i hi r hbefore hmatch
    unfold detect_negation
    apply findSome_of_first _ NEGATION_PATTERNS i hi
    · intro j hj
      rw [hbefore j hj]
    · rw [hmatch]
      cases r with
      | some cap => rfl
      | none => rfl

/-- Witness for C7: the first pattern matches `we do not like cats`
with the capture `like cats`. -/
theorem detect_negation_first_match_witness :
    detect_negation "we do not like cats" = some "like cats" :=
  (detect_negation_first_match "we do not like cats").2 0 (by decide)
    (some "like cats".data)
    (fun j hj => absurd hj (Nat.not_lt_zero j))
    (by decide)

/-- **C9, counterexample.**  The claim states that when the batch has
no earlier user message, the delete-search keyword set merges keywords
from the remembered last user message of the previous call.  In the
source the remembered message is consulted only by the
context-enrichment step, not by the pre-cleanup keyword computation:
with remembered message `I work at Tesla` (whose keywords include
`tesla`), the keyword set for the lone correction message still lacks
`tesla`. -/
theorem precleanup_no_last_message_merge_counterexample :
    precleanupKeywords [⟨"user", "never mind the old role"⟩] 0 =
      some ["work", "position", "role", "job", "developer", "engineer"] ∧
    prevUserOf (([⟨"user", "never mind the old role"⟩] : List Msg).take 0).reverse = none ∧
    "tesla" ∈ extract_topic_keywords "I work at Tesla" ∧
    "tesla" ∉ ["work", "position", "role", "job", "developer", "engineer"] := by decide

/-- **C9, amended.**  The delete-search keyword set merges keywords
only from the nearest preceding user message of the same batch; when
the batch has none, it is exactly the keywords of the negated topic —
the remembered last user message of the previous call never
contributes. -/
theorem precleanup_keyword_merge (messages : List Msg) (i : Nat) (m : Msg)
    (negation : String) (kws : List String)
    (hm : messages.get? i = some m) (hrole : m.role = "user")
    (hneg : detect_negation m.content = some negation)
    (hkws : precleanupKeywords messages i = some kws) :
    ∀ k, k ∈ kws ↔
      (k ∈ extract_topic_keywords negation ∨
        ∃ pm, prevUserOf (messages.take i).reverse = some pm ∧
          k ∈ extract_topic_keywords pm.content) := by
  have hkws2 : kws = mergeKeywords negation (prevUserOf (messages.take i).reverse) := by
    unfold precleanupKeywords at hkws
    rw [hm, Option.some_bind] at hkws
    simp [hrole, hneg] at hkws
    exact hkws.symm
  rw [hkws2]
  unfold mergeKeywords
  cases hp : prevUserOf (messages.take i).reverse with
  | none =>
    intro k
    simp
  | some pm =>
    intro k
    simp only [List.mem_append, List.mem_filter, Option.some.injEq]
    constructor
    · rintro (h | ⟨h, -⟩)
      · exact Or.inl h
      · exact Or.inr ⟨pm, rfl, h⟩
    · rintro (h | ⟨pm2, hpm, h⟩)
      · exact Or.inl h
      · cases hpm
        by_cases hb : k ∈ extract_topic_keywords negation
        · exact Or.inl hb
        · refine Or.inr ⟨h, ?_⟩
          have hc : (extract_topic_keywords negation).contains k = false :=
            Bool.eq_false_iff.mpr fun hc => hb (List.elem_iff.mp hc)
          rw [hc]
          rfl

/-- Witness for the amended C9: with a preceding user message in the
batch, its `tesla` keyword is merged into the delete-search set. -/
theorem precleanup_keyword_merge_witness :
    precleanupKeywords
        [⟨"user", "I work at Tesla"⟩, ⟨"assistant", "ok"⟩,
         ⟨"user", "never mind the old role"⟩] 2 =
      some ["work", "position", "role", "job", "developer", "engineer", "tesla"] ∧
    "tesla" ∈ ["work", "position", "role", "job", "developer", "engineer", "tesla"] :=
  ⟨by decide,
   (precleanup_keyword_merge
      [⟨"user", "I work at Tesla"⟩, ⟨"assistant", "ok"⟩,
       ⟨"user", "never mind the old role"⟩]
      2 ⟨"user", "never mind the old role"⟩ "mind the old role"
      ["work", "position", "role", "job", "developer", "engineer", "tesla"]
      (by decide) rfl (by decide) (by decide) "tesla").mpr
     (Or.inr ⟨⟨"user", "I work at Tesla"⟩, by decide, by decide⟩)⟩
